import Mathlib

/-!
Verification of the dependency-graph engine of the curriculum
critical-path application (`src/app.py`).

The source builds a `networkx.DiGraph` from a module-level `curriculum`
table, removes the passed courses from a copy, and runs
`nx.dag_longest_path` inside `try: ... except nx.NetworkXError: ...`.

The embedding below translates the source line by line.  Graphs are pairs
of insertion-ordered lists (networkx keeps nodes and adjacency in
insertion order).  The relevant networkx library functions
(`topological_sort`, `dag_longest_path`) are modelled faithfully after
their library definitions: Kahn's algorithm emitting zero-in-degree
generations in node insertion order, and the longest-path dynamic program
over the topological order with Python's `max` tie-breaking (first
maximal element wins).  One library fact matters for error handling:
`nx.NetworkXUnfeasible` (raised by `topological_sort` on a cyclic graph)
is a subclass of `NetworkXAlgorithmError`, NOT of `nx.NetworkXError`;
both derive from `NetworkXException`.  Hence the source's
`except nx.NetworkXError` clause does not catch the cycle error, and it
propagates out of `calculate_critical_path`.  An uncaught exception is
modelled as `Except.error` carrying the exception class name.
-/

set_option maxRecDepth 100000

abbrev Node := String

/-- A directed graph as networkx observably keeps it: the node list in
insertion order and the edge list in insertion order, no duplicates. -/
structure DiGraph where
  nodes : List Node
  edges : List (Node × Node)
deriving Repr, DecidableEq

/-- `G.add_node(n)`: inserts `n` if absent, otherwise a no-op. -/
def addNode (g : DiGraph) (n : Node) : DiGraph :=
  if n ∈ g.nodes then g else { g with nodes := g.nodes ++ [n] }

/-- Insert the edge record itself, if absent (re-adding an existing
edge only rewrites its attribute dict). -/
def addEdgeRaw (g : DiGraph) (u v : Node) : DiGraph :=
  if (u, v) ∈ g.edges then g else { g with edges := g.edges ++ [(u, v)] }

/-- `G.add_edge(u, v)`: inserts the endpoints if absent, then the
edge. -/
def addEdge (g : DiGraph) (u v : Node) : DiGraph :=
  addEdgeRaw (addNode (addNode g u) v) u v

/-- One iteration of the builder loop: `G.add_node(course)` followed by
`for p in prereqs: G.add_edge(p, course)`. -/
def addCourse (g : DiGraph) (cp : Node × List Node) : DiGraph :=
  cp.2.foldl (fun h p => addEdge h p cp.1) (addNode g cp.1)

/-- Lines 84-88 of `src/app.py`: `G = nx.DiGraph()` followed by
`for course, prereqs in curriculum.items(): G.add_node(course);
for p in prereqs: G.add_edge(p, course)`.  The Python dict iterates in
insertion order, so the table is a list of pairs. -/
def buildGraph (curr : List (Node × List Node)) : DiGraph :=
  curr.foldl addCourse ⟨[], []⟩

/-- `G.remove_node(n)`: drops the node and every incident edge. -/
def removeNode (g : DiGraph) (n : Node) : DiGraph :=
  { nodes := g.nodes.filter (fun x => x ≠ n),
    edges := g.edges.filter (fun e => e.1 ≠ n ∧ e.2 ≠ n) }

/-- Lines 91-93 of `src/app.py`:
`for course in passed_courses: if course in remaining_graph:
remaining_graph.remove_node(course)` (`in` tests node membership). -/
def removeCompleted (g : DiGraph) (passed : List Node) : DiGraph :=
  passed.foldl (fun h c => if c ∈ h.nodes then removeNode h c else h) g

/-- `v` has no incoming edge among `es`. -/
def noIncoming (es : List (Node × Node)) (v : Node) : Bool :=
  !es.any (fun e => e.2 == v)

/-- The zero-in-degree nodes of the stage, in node insertion order. -/
def zeroIndeg (ns : List Node) (es : List (Node × Node)) : List Node :=
  ns.filter (noIncoming es)

/-- Remove an emitted generation from the node list. -/
def dropNodes (ns zs : List Node) : List Node :=
  ns.filter (fun x => !zs.contains x)

/-- Remove the edges incident to an emitted generation. -/
def dropEdges (es : List (Node × Node)) (zs : List Node) : List (Node × Node) :=
  es.filter (fun e => !zs.contains e.1 && !zs.contains e.2)

/-- Kahn's algorithm as `nx.topological_sort` runs it: repeatedly emit
the current zero-in-degree generation and delete it; if no node has zero
in-degree while nodes remain, the graph has a cycle and the library
raises `NetworkXUnfeasible` (`none` here).  Fuel bounds the recursion;
`topological_sort` supplies `ns.length`, which suffices because every
successful round removes at least one node. -/
def kahnAux : Nat → List Node → List (Node × Node) → Option (List Node)
  | _, [], _ => some []
  | 0, _ :: _, _ => none
  | fuel + 1, v :: vs, es =>
    if (zeroIndeg (v :: vs) es).isEmpty then none
    else
      match kahnAux fuel (dropNodes (v :: vs) (zeroIndeg (v :: vs) es))
          (dropEdges es (zeroIndeg (v :: vs) es)) with
      | some rest => some (zeroIndeg (v :: vs) es ++ rest)
      | none => none

/-- `nx.topological_sort(G)`: a deterministic topological order of the
nodes, `none` when the graph is cyclic (`NetworkXUnfeasible`). -/
def topological_sort (g : DiGraph) : Option (List Node) :=
  kahnAux g.nodes.length g.nodes g.edges

/-- `G.pred[v]`: the predecessors of `v` in edge insertion order. -/
def predsOf (g : DiGraph) (v : Node) : List Node :=
  (g.edges.filter (fun e => e.2 == v)).map (fun e => e.1)

/-- `dist[v]` lookup: the pair `(length, back-pointer)` recorded for
`v`.  The default is never consulted when the keys cover the
topological order (Python would raise `KeyError` otherwise). -/
def lookupDist (dist : List (Node × Nat × Node)) (v : Node) : Nat × Node :=
  match dist.find? (fun e => e.1 == v) with
  | some e => e.2
  | none => (0, v)

/-- Python's `max(us, key=lambda x: x[0])`: the first element attaining
the maximal first component. -/
def maxFirst : List (Nat × Node) → Option (Nat × Node)
  | [] => none
  | x :: xs => some (xs.foldl (fun b y => if y.1 > b.1 then y else b) x)

/-- One iteration of the `dag_longest_path` loop body: record for `v`
the best predecessor extension, or `(0, v)` when `v` has no
predecessor.  (With the default edge weight 1 every candidate length is
positive, so the library's `maxu[0] >= 0` guard never demotes.) -/
def stepDist (g : DiGraph) (dist : List (Node × Nat × Node)) (v : Node) :
    List (Node × Nat × Node) :=
  match maxFirst ((predsOf g v).map (fun u => ((lookupDist dist u).1 + 1, u))) with
  | none => dist ++ [(v, 0, v)]
  | some nu => dist ++ [(v, nu.1, nu.2)]

/-- The `dist` table after processing the topological order. -/
def buildDist (g : DiGraph) : List Node → List (Node × Nat × Node) →
    List (Node × Nat × Node)
  | [], dist => dist
  | v :: rest, dist => buildDist g rest (stepDist g dist v)

/-- `max(dist, key=lambda x: dist[x][0])`: the first key (dict insertion
order = topological order) attaining the maximal recorded length. -/
def argmaxKey (dist : List (Node × Nat × Node)) : Option Node :=
  match dist with
  | [] => none
  | e :: es => some ((es.foldl (fun b y => if y.2.1 > b.2.1 then y else b) e).1)

/-- The back-pointer walk `while u != v: path.append(v); u = v;
v = dist[v][1]`, which stops at a node that points to itself.  Fuel
bounds the loop; recorded lengths strictly decrease along back-pointers,
so `dist.length` steps always suffice. -/
def traceback : Nat → List (Node × Nat × Node) → Node → List Node
  | 0, _, v => [v]
  | fuel + 1, dist, v =>
    if (lookupDist dist v).2 = v then [v]
    else v :: traceback fuel dist (lookupDist dist v).2

/-- `nx.dag_longest_path(G)` with default weights: empty graph gives
`[]`; otherwise topologically sort (raising on a cycle), run the
dynamic program, pick the first maximal end node, and walk the
back-pointers (the Python code appends and then reverses). -/
def dag_longest_path (g : DiGraph) : Option (List Node) :=
  if g.nodes.isEmpty then some []
  else
    match topological_sort g with
    | none => none
    | some order =>
      match argmaxKey (buildDist g order []) with
      | none => some []
      | some v =>
        some ((traceback (buildDist g order []).length (buildDist g order []) v).reverse)

/-- Lines 83-103 of `src/app.py` with the module-level `curriculum`
table abstracted as a parameter.  The `try` body can raise only
`NetworkXUnfeasible` (from `dag_longest_path` on a cyclic residual);
since that class is not a subclass of `nx.NetworkXError`, the `except`
clause never fires and the exception escapes the function, modelled as
`Except.error "NetworkXUnfeasible"`. -/
def calcCriticalPathWith (curr : List (Node × List Node)) (passed : List Node) :
    Except String (Nat × List Node × DiGraph) :=
  let remaining := removeCompleted (buildGraph curr) passed
  if remaining.nodes.length = 0 then Except.ok (0, [], remaining)
  else
    match dag_longest_path remaining with
    | none => Except.error "NetworkXUnfeasible"
    | some critical_path =>
      Except.ok (critical_path.length, critical_path, remaining)

/-- The module-level `curriculum` table of `src/app.py`, in its literal
(dict insertion) order. -/
def curriculum : List (Node × List Node) :=
  [ ("NGN 110 - Intro to Engineering", []),
    ("CHM 101 - Chemistry", []),
    ("MTH 103 - Calculus I", []),
    ("PHY 101 - Physics I", ["MTH 103 - Calculus I"]),
    ("WRI 101 - Academic Writing I", []),
    ("CMP 120 - Programming", []),
    ("MTH 104 - Calculus II", ["MTH 103 - Calculus I"]),
    ("PHY 102 - Physics II", ["PHY 101 - Physics I"]),
    ("WRI 102 - Academic Writing II", ["WRI 101 - Academic Writing I"]),
    ("MTH 203 - Calculus III", ["MTH 104 - Calculus II"]),
    ("MTH 225 - Diff Eq & Linear Alg", ["MTH 104 - Calculus II"]),
    ("NGN 112 - AI & Data Science", ["CMP 120 - Programming"]),
    ("MCE 230 - Materials Science", ["CHM 101 - Chemistry"]),
    ("NGN 211 - Eng Probability & Stats", ["MTH 104 - Calculus II"]),
    ("INE 222 - Operations Research I", ["MTH 225 - Diff Eq & Linear Alg"]),
    ("INE 202 - Fund of Ind Eng", ["NGN 110 - Intro to Engineering"]),
    ("INE 322 - Operations Research II", ["INE 222 - Operations Research I"]),
    ("INE 323 - Stochastic Processes", ["NGN 211 - Eng Probability & Stats"]),
    ("INE 311 - Quality Engineering", ["NGN 211 - Eng Probability & Stats"]),
    ("INE 310 - Data Mgmt for IE", ["CMP 120 - Programming"]),
    ("INE 331 - Analysis of Prod Systems", ["INE 222 - Operations Research I"]),
    ("INE 332 - Supply Chain Analysis", ["INE 331 - Analysis of Prod Systems"]),
    ("INE 302 - Mfg Processes", ["MCE 230 - Materials Science"]),
    ("INE 418 - Decision Science", ["INE 222 - Operations Research I"]),
    ("INE 439 - Fundamentals of Mfg", ["INE 302 - Mfg Processes"]),
    ("INE 465 - Service Systems", ["INE 323 - Stochastic Processes"]),
    ("INE 490 - Senior Design I",
      ["INE 331 - Analysis of Prod Systems", "INE 311 - Quality Engineering"]),
    ("INE 491 - Senior Design II", ["INE 490 - Senior Design I"]) ]

/-- `calculate_critical_path(passed_courses)` exactly as the source
defines it: the engine applied to the module-level table. -/
def calculate_critical_path (passed : List Node) :
    Except String (Nat × List Node × DiGraph) :=
  calcCriticalPathWith curriculum passed

/-- A (possibly one-node) path of the graph `g`: nonempty, every node
present, every consecutive pair an edge. -/
def IsPathG (g : DiGraph) (p : List Node) : Prop :=
  p ≠ [] ∧ (∀ x ∈ p, x ∈ g.nodes) ∧
    List.Chain' (fun a b => (a, b) ∈ g.edges) p

/-- Every edge of the graph has both endpoints among its nodes (an
invariant networkx maintains and the engine relies on). -/
def EdgesIn (g : DiGraph) : Prop :=
  ∀ e ∈ g.edges, e.1 ∈ g.nodes ∧ e.2 ∈ g.nodes

theorem addNode_nodes_mono {g : DiGraph} {x : Node} (n : Node)
    (h : x ∈ g.nodes) : x ∈ (addNode g n).nodes := by
  unfold addNode
  split
  · exact h
  · simp [h]

theorem mem_addNode (g : DiGraph) (n : Node) : n ∈ (addNode g n).nodes := by
  unfold addNode
  split
  · assumption
  · simp

theorem addNode_edges (g : DiGraph) (n : Node) :
    (addNode g n).edges = g.edges := by
  unfold addNode
  split <;> rfl

theorem addEdgeRaw_nodes (g : DiGraph) (u v : Node) :
    (addEdgeRaw g u v).nodes = g.nodes := by
  unfold addEdgeRaw
  split <;> rfl

theorem addEdgeRaw_edges_mono {g : DiGraph} {e : Node × Node} (u v : Node)
    (h : e ∈ g.edges) : e ∈ (addEdgeRaw g u v).edges := by
  unfold addEdgeRaw
  split
  · exact h
  · simp [h]

theorem addEdgeRaw_edge_mem (g : DiGraph) (u v : Node) :
    (u, v) ∈ (addEdgeRaw g u v).edges := by
  unfold addEdgeRaw
  split
  · assumption
  · simp

theorem addEdge_nodes_mono {g : DiGraph} {x : Node} (u v : Node)
    (h : x ∈ g.nodes) : x ∈ (addEdge g u v).nodes := by
  unfold addEdge
  rw [addEdgeRaw_nodes]
  exact addNode_nodes_mono v (addNode_nodes_mono u h)

theorem addEdge_edges_mono {g : DiGraph} {e : Node × Node} (u v : Node)
    (h : e ∈ g.edges) : e ∈ (addEdge g u v).edges := by
  unfold addEdge
  exact addEdgeRaw_edges_mono u v (by simpa [addNode_edges] using h)

theorem addEdge_fst_mem (g : DiGraph) (u v : Node) :
    u ∈ (addEdge g u v).nodes := by
  unfold addEdge
  rw [addEdgeRaw_nodes]
  exact addNode_nodes_mono v (mem_addNode g u)

theorem addEdge_snd_mem (g : DiGraph) (u v : Node) :
    v ∈ (addEdge g u v).nodes := by
  unfold addEdge
  rw [addEdgeRaw_nodes]
  exact mem_addNode (addNode g u) v

theorem addEdge_edge_mem (g : DiGraph) (u v : Node) :
    (u, v) ∈ (addEdge g u v).edges := by
  unfold addEdge
  exact addEdgeRaw_edge_mem _ u v

theorem prereqFold_nodes_mono {x c : Node} {ps : List Node}
    {g : DiGraph} (h : x ∈ g.nodes) :
    x ∈ (ps.foldl (fun h p => addEdge h p c) g).nodes := by
  induction ps generalizing g with
  | nil => exact h
  | cons p rest ih => exact ih (addEdge_nodes_mono p c h)

theorem prereqFold_edges_mono {e : Node × Node} {c : Node}
    {ps : List Node} {g : DiGraph} (h : e ∈ g.edges) :
    e ∈ (ps.foldl (fun h p => addEdge h p c) g).edges := by
  induction ps generalizing g with
  | nil => exact h
  | cons p rest ih => exact ih (addEdge_edges_mono p c h)

theorem prereqFold_prereq_mem {p c : Node} {ps : List Node} {g : DiGraph}
    (hp : p ∈ ps) : p ∈ (ps.foldl (fun h p => addEdge h p c) g).nodes := by
  induction ps generalizing g with
  | nil => cases hp
  | cons q rest ih =>
    rw [List.foldl_cons]
    rcases List.mem_cons.mp hp with rfl | hmem
    · exact prereqFold_nodes_mono (addEdge_fst_mem g p c)
    · exact ih hmem

theorem prereqFold_prereq_edge_mem {p c : Node} {ps : List Node} {g : DiGraph}
    (hp : p ∈ ps) : (p, c) ∈ (ps.foldl (fun h p => addEdge h p c) g).edges := by
  induction ps generalizing g with
  | nil => cases hp
  | cons q rest ih =>
    rw [List.foldl_cons]
    rcases List.mem_cons.mp hp with rfl | hmem
    · exact prereqFold_edges_mono (addEdge_edge_mem g p c)
    · exact ih hmem

theorem addCourse_nodes_mono {g : DiGraph} {x : Node}
    (cp : Node × List Node) (h : x ∈ g.nodes) :
    x ∈ (addCourse g cp).nodes :=
  prereqFold_nodes_mono (addNode_nodes_mono cp.1 h)

theorem addCourse_edges_mono {g : DiGraph} {e : Node × Node}
    (cp : Node × List Node) (h : e ∈ g.edges) :
    e ∈ (addCourse g cp).edges :=
  prereqFold_edges_mono (by simpa [addNode_edges] using h)

theorem addCourse_self_mem (g : DiGraph) (cp : Node × List Node) :
    cp.1 ∈ (addCourse g cp).nodes :=
  prereqFold_nodes_mono (mem_addNode g cp.1)

theorem addCourse_prereq_mem (g : DiGraph) (cp : Node × List Node)
    {p : Node} (hp : p ∈ cp.2) : p ∈ (addCourse g cp).nodes :=
  prereqFold_prereq_mem hp

theorem addCourse_prereq_edge_mem (g : DiGraph) (cp : Node × List Node)
    {p : Node} (hp : p ∈ cp.2) : (p, cp.1) ∈ (addCourse g cp).edges :=
  prereqFold_prereq_edge_mem hp

theorem buildFold_nodes_mono {x : Node} {curr : List (Node × List Node)}
    {g : DiGraph} (h : x ∈ g.nodes) : x ∈ (curr.foldl addCourse g).nodes := by
  induction curr generalizing g with
  | nil => exact h
  | cons cp rest ih => exact ih (addCourse_nodes_mono cp h)

theorem buildFold_edges_mono {e : Node × Node}
    {curr : List (Node × List Node)} {g : DiGraph} (h : e ∈ g.edges) :
    e ∈ (curr.foldl addCourse g).edges := by
  induction curr generalizing g with
  | nil => exact h
  | cons cp rest ih => exact ih (addCourse_edges_mono cp h)

/-- C6 (builder contract): every curriculum entry `(task, prereqs)`
yields the task node and, per prerequisite `p`, the node `p` and the
edge `p -> task`; an undeclared prerequisite becomes a node all the
same (no rejection). -/
theorem buildGraph_spec {curr : List (Node × List Node)}
    {task : Node} {prereqs : List Node} (h : (task, prereqs) ∈ curr) :
    task ∈ (buildGraph curr).nodes ∧
      ∀ p ∈ prereqs,
        p ∈ (buildGraph curr).nodes ∧ (p, task) ∈ (buildGraph curr).edges := by
  unfold buildGraph
  generalize (⟨[], []⟩ : DiGraph) = g0
  induction curr generalizing g0 with
  | nil => cases h
  | cons cp rest ih =>
    rw [List.foldl_cons]
    rcases List.mem_cons.mp h with rfl | hmem
    · refine ⟨buildFold_nodes_mono (addCourse_self_mem g0 (task, prereqs)), ?_⟩
      intro p hp
      exact ⟨buildFold_nodes_mono (addCourse_prereq_mem g0 (task, prereqs) hp),
        buildFold_edges_mono (addCourse_prereq_edge_mem g0 (task, prereqs) hp)⟩
    · exact ih hmem _

/-- Witness for C6 at a concrete curriculum whose prerequisite `X` is
never declared as a key: the builder still produces the node `X` and
the edge `X -> Y`. -/
theorem buildGraph_spec_witness :
    ("Y", ["X"]) ∈ [("Y", ["X"])] ∧
      ("Y" ∈ (buildGraph [("Y", ["X"])]).nodes ∧
        ∀ p ∈ ["X"],
          p ∈ (buildGraph [("Y", ["X"])]).nodes ∧
            (p, "Y") ∈ (buildGraph [("Y", ["X"])]).edges) :=
  ⟨by decide, buildGraph_spec (by decide)⟩

theorem removeStep_nodes (h : DiGraph) (c : Node) :
    (if c ∈ h.nodes then removeNode h c else h).nodes =
      h.nodes.filter (fun x => x ≠ c) := by
  split
  · rfl
  · next hc =>
    symm
    apply List.filter_eq_self.mpr
    intro x hx
    simp only [ne_eq, decide_eq_true_eq]
    rintro rfl
    exact hc hx

theorem removeStep_edges (h : DiGraph) (c : Node) (hE : EdgesIn h) :
    (if c ∈ h.nodes then removeNode h c else h).edges =
      h.edges.filter (fun e => e.1 ≠ c ∧ e.2 ≠ c) := by
  split
  · rfl
  · next hc =>
    symm
    apply List.filter_eq_self.mpr
    intro e he
    have := hE e he
    simp only [ne_eq, decide_eq_true_eq]
    constructor
    · rintro rfl
      exact hc this.1
    · rintro rfl
      exact hc this.2

theorem removeStep_edgesIn (h : DiGraph) (c : Node) (hE : EdgesIn h) :
    EdgesIn (if c ∈ h.nodes then removeNode h c else h) := by
  intro e he
  rw [removeStep_edges h c hE] at he
  rw [removeStep_nodes]
  rcases List.mem_filter.mp he with ⟨hmem, hcond⟩
  simp only [ne_eq, decide_eq_true_eq] at hcond
  have := hE e hmem
  constructor
  · exact List.mem_filter.mpr ⟨this.1, by simpa using hcond.1⟩
  · exact List.mem_filter.mpr ⟨this.2, by simpa using hcond.2⟩

theorem removeCompleted_nodes (g : DiGraph) (passed : List Node) :
    (removeCompleted g passed).nodes =
      g.nodes.filter (fun x => !decide (x ∈ passed)) := by
  induction passed generalizing g with
  | nil =>
    simp [removeCompleted]
  | cons c rest ih =>
    have hstep : removeCompleted g (c :: rest) =
        removeCompleted (if c ∈ g.nodes then removeNode g c else g) rest := rfl
    rw [hstep, ih, removeStep_nodes, List.filter_filter]
    apply List.filter_congr
    intro x _
    by_cases h1 : x = c <;> by_cases h2 : x ∈ rest <;>
      simp [h1, h2, List.mem_cons]

theorem removeCompleted_edges (g : DiGraph) (passed : List Node)
    (hE : EdgesIn g) :
    (removeCompleted g passed).edges =
      g.edges.filter
        (fun e => !decide (e.1 ∈ passed) && !decide (e.2 ∈ passed)) := by
  induction passed generalizing g with
  | nil =>
    simp [removeCompleted]
  | cons c rest ih =>
    have hstep : removeCompleted g (c :: rest) =
        removeCompleted (if c ∈ g.nodes then removeNode g c else g) rest := rfl
    rw [hstep, ih _ (removeStep_edgesIn g c hE), removeStep_edges g c hE,
      List.filter_filter]
    apply List.filter_congr
    intro e _
    by_cases h1 : e.1 = c <;> by_cases h2 : e.2 = c <;>
      by_cases h3 : e.1 ∈ rest <;> by_cases h4 : e.2 ∈ rest <;>
        simp [h1, h2, h3, h4, List.mem_cons]

theorem removeCompleted_edgesIn (g : DiGraph) (passed : List Node)
    (hE : EdgesIn g) : EdgesIn (removeCompleted g passed) := by
  intro e he
  rw [removeCompleted_edges g passed hE] at he
  rcases List.mem_filter.mp he with ⟨hmem, hcond⟩
  rcases Bool.and_eq_true_iff.mp hcond with ⟨h1, h2⟩
  have := hE e hmem
  rw [removeCompleted_nodes]
  exact ⟨List.mem_filter.mpr ⟨this.1, h1⟩, List.mem_filter.mpr ⟨this.2, h2⟩⟩

theorem removeCompleted_nodes_subset {g : DiGraph} {passed : List Node}
    {x : Node} (h : x ∈ (removeCompleted g passed).nodes) : x ∈ g.nodes := by
  rw [removeCompleted_nodes] at h
  exact (List.mem_filter.mp h).1

theorem addNode_nodup {g : DiGraph} (n : Node) (h : g.nodes.Nodup) :
    (addNode g n).nodes.Nodup := by
  unfold addNode
  split
  · exact h
  · next hc => simp [List.nodup_append, h, hc]

theorem addEdge_nodup {g : DiGraph} (u v : Node) (h : g.nodes.Nodup) :
    (addEdge g u v).nodes.Nodup := by
  unfold addEdge
  rw [addEdgeRaw_nodes]
  exact addNode_nodup v (addNode_nodup u h)

theorem prereqFold_nodup {c : Node} {ps : List Node} {g : DiGraph}
    (h : g.nodes.Nodup) :
    (ps.foldl (fun h p => addEdge h p c) g).nodes.Nodup := by
  induction ps generalizing g with
  | nil => exact h
  | cons p rest ih => exact ih (addEdge_nodup p c h)

theorem buildGraph_nodup (curr : List (Node × List Node)) :
    (buildGraph curr).nodes.Nodup := by
  unfold buildGraph
  have base : (⟨[], []⟩ : DiGraph).nodes.Nodup := List.nodup_nil
  generalize (⟨[], []⟩ : DiGraph) = g0 at base ⊢
  induction curr generalizing g0 with
  | nil => exact base
  | cons cp rest ih =>
    rw [List.foldl_cons]
    exact ih _ (prereqFold_nodup (addNode_nodup cp.1 base))

theorem addNode_edgesIn {g : DiGraph} (n : Node) (h : EdgesIn g) :
    EdgesIn (addNode g n) := by
  intro e he
  rw [addNode_edges] at he
  exact ⟨addNode_nodes_mono n (h e he).1, addNode_nodes_mono n (h e he).2⟩

theorem addEdgeRaw_edgesIn {g : DiGraph} (u v : Node)
    (hu : u ∈ g.nodes) (hv : v ∈ g.nodes) (h : EdgesIn g) :
    EdgesIn (addEdgeRaw g u v) := by
  intro e he
  rw [addEdgeRaw_nodes]
  unfold addEdgeRaw at he
  split at he
  · exact h e he
  · simp only [List.mem_append, List.mem_singleton] at he
    rcases he with he | rfl
    · exact h e he
    · exact ⟨hu, hv⟩

theorem addEdge_edgesIn {g : DiGraph} (u v : Node) (h : EdgesIn g) :
    EdgesIn (addEdge g u v) :=
  addEdgeRaw_edgesIn u v (addNode_nodes_mono v (mem_addNode g u))
    (mem_addNode (addNode g u) v)
    (addNode_edgesIn v (addNode_edgesIn u h))

theorem prereqFold_edgesIn {c : Node} {ps : List Node} {g : DiGraph}
    (h : EdgesIn g) : EdgesIn (ps.foldl (fun h p => addEdge h p c) g) := by
  induction ps generalizing g with
  | nil => exact h
  | cons p rest ih => exact ih (addEdge_edgesIn p c h)

theorem buildGraph_edgesIn (curr : List (Node × List Node)) :
    EdgesIn (buildGraph curr) := by
  unfold buildGraph
  have base : EdgesIn (⟨[], []⟩ : DiGraph) := by
    intro e he
    cases he
  generalize (⟨[], []⟩ : DiGraph) = g0 at base ⊢
  induction curr generalizing g0 with
  | nil => exact base
  | cons cp rest ih =>
    rw [List.foldl_cons]
    exact ih _ (prereqFold_edgesIn (addNode_edgesIn cp.1 base))

/-- The completed set selecting every course of the curriculum. -/
def allCourses : List Node := curriculum.map (fun cp => cp.1)

/-- C4: whenever the completed set covers every task (or, more
generally, the residual graph has zero nodes), `calculate_critical_path`
returns stage count 0, the empty path, and the zero-node residual. -/
theorem emptyResidual_result (passed : List Node)
    (h : (∀ n ∈ (buildGraph curriculum).nodes, n ∈ passed) ∨
      (removeCompleted (buildGraph curriculum) passed).nodes = []) :
    calculate_critical_path passed =
      Except.ok (0, [], removeCompleted (buildGraph curriculum) passed) ∧
      (removeCompleted (buildGraph curriculum) passed).nodes = [] := by
  have hempty : (removeCompleted (buildGraph curriculum) passed).nodes = [] := by
    rcases h with h | h
    · rw [removeCompleted_nodes]
      apply List.filter_eq_nil_iff.mpr
      intro x hx
      simp [h x hx]
    · exact h
  refine ⟨?_, hempty⟩
  simp only [calculate_critical_path, calcCriticalPathWith, hempty]
  rfl

/-- Witness for C4: passing every course yields `(0, [], empty)`. -/
theorem emptyResidual_result_witness :
    (∀ n ∈ (buildGraph curriculum).nodes, n ∈ allCourses) ∧
      calculate_critical_path allCourses =
        Except.ok (0, [], removeCompleted (buildGraph curriculum) allCourses) ∧
      (removeCompleted (buildGraph curriculum) allCourses).nodes = [] :=
  ⟨by decide, emptyResidual_result allCourses (Or.inl (by decide))⟩

/-- C9: on every successful return the stage count equals the length of
the returned path, and it is zero exactly when the path is empty (so a
nonzero count guarantees a first element for the UI's `path[0]`). -/
theorem stageCount_eq_pathLength (passed : List Node) (n : Nat)
    (p : List Node) (r : DiGraph)
    (h : calculate_critical_path passed = Except.ok (n, p, r)) :
    n = p.length ∧ (n = 0 ↔ p = []) := by
  simp only [calculate_critical_path, calcCriticalPathWith] at h
  split at h
  · simp only [Except.ok.injEq, Prod.mk.injEq] at h
    obtain ⟨hn, hp, -⟩ := h
    subst hn
    subst hp
    simp
  · split at h
    · exact Except.noConfusion h
    · simp only [Except.ok.injEq, Prod.mk.injEq] at h
      obtain ⟨hn, hp, -⟩ := h
      subst hn
      subst hp
      simp [List.length_eq_zero]

/-- Witness for C9 instantiated at the all-courses completed set. -/
theorem stageCount_eq_pathLength_witness :
    0 = ([] : List Node).length ∧ (0 = 0 ↔ ([] : List Node) = []) :=
  stageCount_eq_pathLength allCourses 0 [] ⟨[], []⟩ (by rfl)

/-- C7: both the builder and the engine are deterministic — two runs on
identical input produce identical graphs and identical
(count, path, residual) results.  In the embedding both operations are
pure functions of their arguments (the source consults no state beyond
the curriculum table and the passed set), so two calls are literally
the same value, tie-breaking included. -/
theorem engine_deterministic (curr : List (Node × List Node))
    (passed : List Node) :
    (buildGraph curr).nodes = (buildGraph curr).nodes ∧
      (buildGraph curr).edges = (buildGraph curr).edges ∧
      calcCriticalPathWith curr passed = calcCriticalPathWith curr passed :=
  ⟨rfl, rfl, rfl⟩

/-- C8: the engine never mutates its inputs — the residual it returns
is a pure filtering of the graph freshly rebuilt from the (immutable)
curriculum table, which is exactly `G.copy()` followed by node
removals; the base graph itself stays node-for-node and edge-for-edge
what `buildGraph curriculum` produces. -/
theorem engine_no_mutation (passed : List Node) (n : Nat) (p : List Node)
    (r : DiGraph)
    (h : calculate_critical_path passed = Except.ok (n, p, r)) :
    r = removeCompleted (buildGraph curriculum) passed ∧
      r.nodes = (buildGraph curriculum).nodes.filter
        (fun x => !decide (x ∈ passed)) ∧
      r.edges = (buildGraph curriculum).edges.filter
        (fun e => !decide (e.1 ∈ passed) && !decide (e.2 ∈ passed)) := by
  have hr : r = removeCompleted (buildGraph curriculum) passed := by
    simp only [calculate_critical_path, calcCriticalPathWith] at h
    split at h
    · simp only [Except.ok.injEq, Prod.mk.injEq] at h
      exact h.2.2.symm
    · split at h
      · exact Except.noConfusion h
      · simp only [Except.ok.injEq, Prod.mk.injEq] at h
        exact h.2.2.symm
  refine ⟨hr, ?_, ?_⟩
  · rw [hr, removeCompleted_nodes]
  · rw [hr, removeCompleted_edges _ _ (buildGraph_edgesIn curriculum)]

/-- Witness for C8 at the all-courses completed set. -/
theorem engine_no_mutation_witness :
    (⟨[], []⟩ : DiGraph) = removeCompleted (buildGraph curriculum) allCourses ∧
      (⟨[], []⟩ : DiGraph).nodes = (buildGraph curriculum).nodes.filter
        (fun x => !decide (x ∈ allCourses)) ∧
      (⟨[], []⟩ : DiGraph).edges = (buildGraph curriculum).edges.filter
        (fun e => !decide (e.1 ∈ allCourses) && !decide (e.2 ∈ allCourses)) :=
  engine_no_mutation allCourses 0 [] ⟨[], []⟩ (by rfl)

/-- C5: a completed entry naming a task absent from the graph is a
no-op — the result triple is identical with and without it. -/
theorem unknown_task_noop (l1 l2 : List Node) (t : Node)
    (ht : t ∉ (buildGraph curriculum).nodes) :
    calculate_critical_path (l1 ++ t :: l2) =
      calculate_critical_path (l1 ++ l2) := by
  have key : removeCompleted (buildGraph curriculum) (l1 ++ t :: l2) =
      removeCompleted (buildGraph curriculum) (l1 ++ l2) := by
    unfold removeCompleted
    rw [List.foldl_append, List.foldl_append, List.foldl_cons]
    have hnot : t ∉ (removeCompleted (buildGraph curriculum) l1).nodes :=
      fun hmem => ht (removeCompleted_nodes_subset hmem)
    congr 1
    simp only [removeCompleted] at hnot
    simp [hnot]
  simp only [calculate_critical_path, calcCriticalPathWith]
  rw [key]

/-- Witness for C5: an identifier foreign to the curriculum. -/
theorem unknown_task_noop_witness :
    "BIO 999 - Unlisted" ∉ (buildGraph curriculum).nodes ∧
      calculate_critical_path ([] ++ "BIO 999 - Unlisted" :: allCourses) =
        calculate_critical_path ([] ++ allCourses) :=
  ⟨by decide, unknown_task_noop [] allCourses "BIO 999 - Unlisted" (by decide)⟩

/-- C1 exhibit: on a residual graph containing a cycle the engine does
NOT return the degraded `(0, [], residual)` tuple — it raises.
`nx.dag_longest_path` raises `NetworkXUnfeasible`, which is not a
subclass of the caught `nx.NetworkXError`, so the exception escapes
`calculate_critical_path`.  The cyclic two-course table below (engine
body applied to it verbatim) crashes with an empty completed set,
while its residual is nonempty and cyclic. -/
theorem cyclicResidual_raises :
    calcCriticalPathWith [("A", ["B"]), ("B", ["A"])] [] =
        Except.error "NetworkXUnfeasible" ∧
      (removeCompleted (buildGraph [("A", ["B"]), ("B", ["A"])]) []).nodes ≠
        [] ∧
      topological_sort
          (removeCompleted (buildGraph [("A", ["B"]), ("B", ["A"])]) []) =
        none :=
  ⟨by rfl, by decide, by rfl⟩

/-- `u` occurs strictly before `v` in the list `l`. -/
def Before (u v : Node) (l : List Node) : Prop :=
  ∃ l1 l2 l3, l = l1 ++ u :: l2 ++ v :: l3

theorem kahnAux_nil (fuel : Nat) (es : List (Node × Node)) :
    kahnAux fuel [] es = some [] := by
  cases fuel <;> rfl

theorem kahnAux_cons (fuel : Nat) (v : Node) (vs : List Node)
    (es : List (Node × Node)) :
    kahnAux (fuel + 1) (v :: vs) es =
      if (zeroIndeg (v :: vs) es).isEmpty then none
      else
        match kahnAux fuel (dropNodes (v :: vs) (zeroIndeg (v :: vs) es))
            (dropEdges es (zeroIndeg (v :: vs) es)) with
        | some rest => some (zeroIndeg (v :: vs) es ++ rest)
        | none => none := rfl

theorem zeroIndeg_subset {ns : List Node} {es : List (Node × Node)} {x : Node}
    (h : x ∈ zeroIndeg ns es) : x ∈ ns :=
  (List.mem_filter.mp h).1

theorem zeroIndeg_no_incoming {ns : List Node} {es : List (Node × Node)}
    {u v : Node} (hz : v ∈ zeroIndeg ns es) (he : (u, v) ∈ es) : False := by
  rcases List.mem_filter.mp hz with ⟨-, hni⟩
  unfold noIncoming at hni
  have hany : es.any (fun e => e.2 == v) = true :=
    List.any_eq_true.mpr ⟨(u, v), he, by simp⟩
  simp [hany] at hni

theorem mem_dropNodes {ns zs : List Node} {x : Node} :
    x ∈ dropNodes ns zs ↔ x ∈ ns ∧ x ∉ zs := by
  unfold dropNodes
  simp [List.mem_filter]

theorem mem_dropEdges {es : List (Node × Node)} {zs : List Node}
    {e : Node × Node} :
    e ∈ dropEdges es zs ↔ e ∈ es ∧ e.1 ∉ zs ∧ e.2 ∉ zs := by
  unfold dropEdges
  simp [List.mem_filter]

theorem kahn_mem :
    ∀ (fuel : Nat) (ns : List Node) (es : List (Node × Node))
      (order : List Node),
      kahnAux fuel ns es = some order → ∀ x, x ∈ order ↔ x ∈ ns := by
  intro fuel
  induction fuel with
  | zero =>
    intro ns es order h x
    cases ns with
    | nil =>
      rw [kahnAux_nil] at h
      cases h
      simp
    | cons v vs => cases h
  | succ fuel ih =>
    intro ns es order h x
    cases ns with
    | nil =>
      rw [kahnAux_nil] at h
      cases h
      simp
    | cons v vs =>
      rw [kahnAux_cons] at h
      split at h
      · cases h
      · next hne =>
        split at h
        · next rest hrest =>
          cases h
          have hrec := ih _ _ _ hrest
          constructor
          · intro hx
            rcases List.mem_append.mp hx with hx | hx
            · exact zeroIndeg_subset hx
            · exact (mem_dropNodes.mp ((hrec x).mp hx)).1
          · intro hx
            by_cases hz : x ∈ zeroIndeg (v :: vs) es
            · exact List.mem_append.mpr (Or.inl hz)
            · exact List.mem_append.mpr
                (Or.inr ((hrec x).mpr (mem_dropNodes.mpr ⟨hx, hz⟩)))
        · cases h

theorem kahn_nodup :
    ∀ (fuel : Nat) (ns : List Node) (es : List (Node × Node))
      (order : List Node),
      kahnAux fuel ns es = some order → ns.Nodup → order.Nodup := by
  intro fuel
  induction fuel with
  | zero =>
    intro ns es order h hnd
    cases ns with
    | nil =>
      rw [kahnAux_nil] at h
      cases h
      exact List.nodup_nil
    | cons v vs => cases h
  | succ fuel ih =>
    intro ns es order h hnd
    cases ns with
    | nil =>
      rw [kahnAux_nil] at h
      cases h
      exact List.nodup_nil
    | cons v vs =>
      rw [kahnAux_cons] at h
      split at h
      · cases h
      · split at h
        · next rest hrest =>
          cases h
          refine List.Nodup.append (hnd.filter _) (ih _ _ _ hrest (hnd.filter _)) ?_
          intro a haz har
          exact (mem_dropNodes.mp ((kahn_mem _ _ _ _ hrest a).mp har)).2 haz
        · cases h

theorem before_append_left {u v : Node} {l rest : List Node}
    (h : Before u v rest) : Before u v (l ++ rest) := by
  obtain ⟨l1, l2, l3, rfl⟩ := h
  exact ⟨l ++ l1, l2, l3, by simp⟩

theorem kahn_before :
    ∀ (fuel : Nat) (ns : List Node) (es : List (Node × Node))
      (order : List Node),
      kahnAux fuel ns es = some order →
      (∀ e ∈ es, e.1 ∈ ns) →
      ∀ u v : Node, (u, v) ∈ es → v ∈ ns → Before u v order := by
  intro fuel
  induction fuel with
  | zero =>
    intro ns es order h hsrc u v he hv
    cases ns with
    | nil => cases hv
    | cons w ws => cases h
  | succ fuel ih =>
    intro ns es order h hsrc u v he hv
    cases ns with
    | nil => cases hv
    | cons w ws =>
      rw [kahnAux_cons] at h
      split at h
      · cases h
      · split at h
        · next rest hrest =>
          cases h
          have hvz : v ∉ zeroIndeg (w :: ws) es :=
            fun hz => zeroIndeg_no_incoming hz he
          have hvrest : v ∈ rest :=
            (kahn_mem _ _ _ _ hrest v).mpr (mem_dropNodes.mpr ⟨hv, hvz⟩)
          by_cases huz : u ∈ zeroIndeg (w :: ws) es
          · obtain ⟨a, b, hab⟩ := List.append_of_mem huz
            obtain ⟨c, d, hcd⟩ := List.append_of_mem hvrest
            exact ⟨a, b ++ c, d, by rw [hab, hcd]; simp⟩
          · apply before_append_left
            refine ih _ _ _ hrest ?_ u v ?_ ?_
            · intro e hee
              rcases mem_dropEdges.mp hee with ⟨hes, h1, -⟩
              exact mem_dropNodes.mpr ⟨hsrc e hes, h1⟩
            · exact mem_dropEdges.mpr ⟨he, huz, hvz⟩
            · exact mem_dropNodes.mpr ⟨hv, hvz⟩
        · cases h

theorem exists_min_rank (f : Node → Nat) :
    ∀ l : List Node, l ≠ [] → ∃ m ∈ l, ∀ x ∈ l, f m ≤ f x := by
  intro l
  induction l with
  | nil => intro h; exact absurd rfl h
  | cons a rest ih =>
    intro _
    rcases eq_or_ne rest [] with rfl | hne
    · refine ⟨a, by simp, ?_⟩
      intro x hx
      rcases List.mem_cons.mp hx with rfl | hx
      · exact le_refl _
      · cases hx
    · obtain ⟨m, hm, hmin⟩ := ih hne
      by_cases hle : f a ≤ f m
      · refine ⟨a, by simp, ?_⟩
        intro x hx
        rcases List.mem_cons.mp hx with rfl | hx
        · exact le_refl _
        · exact le_trans hle (hmin x hx)
      · refine ⟨m, List.mem_cons_of_mem a hm, ?_⟩
        intro x hx
        rcases List.mem_cons.mp hx with rfl | hx
        · exact le_of_lt (lt_of_not_le hle)
        · exact hmin x hx

theorem length_filter_lt {p : Node → Bool} {l : List Node} {x : Node}
    (hx : x ∈ l) (hpx : p x = false) : (l.filter p).length < l.length := by
  induction l with
  | nil => cases hx
  | cons a rest ih =>
    rcases List.mem_cons.mp hx with rfl | hmem
    · rw [List.filter_cons_of_neg (by simp [hpx])]
      exact Nat.lt_succ_of_le (List.length_filter_le p rest)
    · cases hpa : p a with
      | true =>
        rw [List.filter_cons_of_pos (by simp [hpa])]
        simpa using Nat.succ_lt_succ (ih hmem)
      | false =>
        rw [List.filter_cons_of_neg (by simp [hpa])]
        exact Nat.lt_succ_of_lt (ih hmem)

theorem kahn_success :
    ∀ (fuel : Nat) (ns : List Node) (es : List (Node × Node))
      (rank : Node → Nat),
      ns.length ≤ fuel →
      (∀ e ∈ es, e.1 ∈ ns) →
      (∀ e ∈ es, rank e.1 < rank e.2) →
      ∃ order, kahnAux fuel ns es = some order := by
  intro fuel
  induction fuel with
  | zero =>
    intro ns es rank hfuel hsrc hrank
    cases ns with
    | nil => exact ⟨[], kahnAux_nil 0 es⟩
    | cons v vs => simp at hfuel
  | succ fuel ih =>
    intro ns es rank hfuel hsrc hrank
    cases ns with
    | nil => exact ⟨[], kahnAux_nil _ es⟩
    | cons v vs =>
      obtain ⟨m, hm, hmin⟩ := exists_min_rank rank (v :: vs) (by simp)
      have hmz : m ∈ zeroIndeg (v :: vs) es := by
        apply List.mem_filter.mpr
        refine ⟨hm, ?_⟩
        unfold noIncoming
        apply Bool.not_eq_true' .. |>.mpr ?_ |> fun h => h
        cases hany : List.any es (fun e => e.2 == m) with
        | false => rfl
        | true =>
          obtain ⟨e, hee, hem⟩ := List.any_eq_true.mp hany
          have hem2 : e.2 = m := by simpa using hem
          have h1 : rank e.1 < rank m := hem2 ▸ hrank e hee
          have h2 : rank m ≤ rank e.1 := hmin e.1 (hsrc e hee)
          omega
      have hne : ¬(zeroIndeg (v :: vs) es).isEmpty = true := by
        cases hzz : zeroIndeg (v :: vs) es with
        | nil => rw [hzz] at hmz; cases hmz
        | cons a b => simp
      have hlen : (dropNodes (v :: vs) (zeroIndeg (v :: vs) es)).length ≤ fuel := by
        have : (dropNodes (v :: vs) (zeroIndeg (v :: vs) es)).length <
            (v :: vs).length := by
          apply length_filter_lt hm
          simp [hmz]
        omega
      obtain ⟨rest, hrest⟩ :=
        ih (dropNodes (v :: vs) (zeroIndeg (v :: vs) es))
          (dropEdges es (zeroIndeg (v :: vs) es)) rank hlen
          (fun e hee =>
            mem_dropNodes.mpr
              ⟨hsrc e (mem_dropEdges.mp hee).1, (mem_dropEdges.mp hee).2.1⟩)
          (fun e hee => hrank e (mem_dropEdges.mp hee).1)
      refine ⟨zeroIndeg (v :: vs) es ++ rest, ?_⟩
      rw [kahnAux_cons]
      rw [if_neg hne, hrest]

/-- Position of the first occurrence of `v` in `l` (length if absent). -/
def posIn : List Node → Node → Nat
  | [], _ => 0
  | x :: xs, v => if x = v then 0 else posIn xs v + 1

/-- The shipped curriculum is topologically ordered as written: every
edge of the built graph goes from an earlier node to a later one in
node insertion order, so the base graph is acyclic. -/
theorem base_edges_ranked :
    ∀ e ∈ (buildGraph curriculum).edges,
      posIn (buildGraph curriculum).nodes e.1 <
        posIn (buildGraph curriculum).nodes e.2 := by
  decide

theorem residual_topo_some (passed : List Node) :
    ∃ order,
      topological_sort (removeCompleted (buildGraph curriculum) passed) =
        some order := by
  have hE : EdgesIn (removeCompleted (buildGraph curriculum) passed) :=
    removeCompleted_edgesIn _ _ (buildGraph_edgesIn curriculum)
  apply kahn_success _ _ _ (posIn (buildGraph curriculum).nodes)
    (le_refl _) (fun e he => (hE e he).1)
  intro e he
  rw [removeCompleted_edges _ _ (buildGraph_edgesIn curriculum)] at he
  exact base_edges_ranked e (List.mem_filter.mp he).1

theorem dag_longest_path_some_of_order {g : DiGraph} {order : List Node}
    (h : topological_sort g = some order) :
    ∃ p, dag_longest_path g = some p := by
  unfold dag_longest_path
  rw [h]
  by_cases hemp : g.nodes.isEmpty
  · rw [if_pos hemp]
    exact ⟨[], rfl⟩
  · rw [if_neg hemp]
    cases hd : argmaxKey (buildDist g order []) with
    | none =>
      refine ⟨[], ?_⟩
      simp [hd]
    | some v =>
      refine ⟨(traceback (buildDist g order []).length
        (buildDist g order []) v).reverse, ?_⟩
      simp [hd]

/-- C2: the engine never raises for any completed-set input over the
shipped curriculum — every call returns a well-formed result triple.
(The cyclic branch that would raise is unreachable here because every
residual of the acyclic base graph is acyclic.) -/
theorem engine_never_raises (passed : List Node) :
    ∃ n p r, calculate_critical_path passed = Except.ok (n, p, r) := by
  simp only [calculate_critical_path, calcCriticalPathWith]
  by_cases hz :
      (removeCompleted (buildGraph curriculum) passed).nodes.length = 0
  · exact ⟨0, [], _, by rw [if_pos hz]⟩
  · obtain ⟨order, horder⟩ := residual_topo_some passed
    obtain ⟨p, hp⟩ := dag_longest_path_some_of_order horder
    exact ⟨p.length, p, _, by rw [if_neg hz, hp]⟩

/-- The keys of the `dist` dictionary, in insertion order. -/
def distKeys (dist : List (Node × Nat × Node)) : List Node :=
  dist.map (fun e => e.1)

theorem buildDist_append (g : DiGraph) (l1 l2 : List Node)
    (d : List (Node × Nat × Node)) :
    buildDist g (l1 ++ l2) d = buildDist g l2 (buildDist g l1 d) := by
  induction l1 generalizing d with
  | nil => rfl
  | cons v rest ih =>
    simp only [List.cons_append, buildDist]
    exact ih _

theorem stepDist_keys (g : DiGraph) (d : List (Node × Nat × Node)) (v : Node) :
    distKeys (stepDist g d v) = distKeys d ++ [v] := by
  unfold stepDist
  split <;> simp [distKeys]

theorem buildDist_keys (g : DiGraph) (order : List Node) :
    ∀ d, distKeys (buildDist g order d) = distKeys d ++ order := by
  induction order with
  | nil =>
    intro d
    simp [buildDist]
  | cons v rest ih =>
    intro d
    simp only [buildDist]
    rw [ih, stepDist_keys]
    simp

theorem lookupDist_cons_self {e : Node × Nat × Node}
    {rest : List (Node × Nat × Node)} {v : Node} (h : e.1 = v) :
    lookupDist (e :: rest) v = e.2 := by
  unfold lookupDist
  rw [List.find?_cons_of_pos _ (by simp [h])]

theorem lookupDist_cons_ne {e : Node × Nat × Node}
    {rest : List (Node × Nat × Node)} {v : Node} (h : e.1 ≠ v) :
    lookupDist (e :: rest) v = lookupDist rest v := by
  unfold lookupDist
  rw [List.find?_cons_of_neg _ (by simp [h])]

theorem lookupDist_append_left {d : List (Node × Nat × Node)}
    (d2 : List (Node × Nat × Node)) {v : Node} (h : v ∈ distKeys d) :
    lookupDist (d ++ d2) v = lookupDist d v := by
  induction d with
  | nil => cases h
  | cons e rest ih =>
    simp only [distKeys, List.map_cons, List.mem_cons] at h
    by_cases hev : e.1 = v
    · rw [List.cons_append, lookupDist_cons_self hev, lookupDist_cons_self hev]
    · have h' : v ∈ distKeys rest := by
        rcases h with h | h
        · exact absurd h.symm hev
        · simpa [distKeys] using h
      rw [List.cons_append, lookupDist_cons_ne hev, lookupDist_cons_ne hev]
      exact ih h'

theorem lookupDist_append_fresh {d : List (Node × Nat × Node)} {v : Node}
    (nu : Nat × Node) (h : v ∉ distKeys d) :
    lookupDist (d ++ [(v, nu)]) v = nu := by
  induction d with
  | nil => exact lookupDist_cons_self rfl
  | cons e rest ih =>
    simp only [distKeys, List.map_cons, List.mem_cons] at h
    push_neg at h
    rw [List.cons_append, lookupDist_cons_ne (fun he => h.1 he.symm)]
    exact ih (by simpa [distKeys] using h.2)

theorem lookup_of_mem {dist : List (Node × Nat × Node)} {v : Node}
    {nu : Nat × Node} (hnd : (distKeys dist).Nodup) (h : (v, nu) ∈ dist) :
    lookupDist dist v = nu := by
  induction dist with
  | nil => cases h
  | cons e rest ih =>
    simp only [distKeys, List.map_cons, List.nodup_cons] at hnd
    rcases List.mem_cons.mp h with heq | hmem
    · subst heq
      exact lookupDist_cons_self rfl
    · have hne : e.1 ≠ v := by
        rintro rfl
        exact hnd.1 (List.mem_map.mpr ⟨(e.1, nu), hmem, rfl⟩)
      rw [lookupDist_cons_ne hne]
      exact ih hnd.2 hmem

theorem mem_keys_entry {dist : List (Node × Nat × Node)} {v : Node}
    (h : v ∈ distKeys dist) : (v, lookupDist dist v) ∈ dist := by
  induction dist with
  | nil => cases h
  | cons e rest ih =>
    by_cases hev : e.1 = v
    · rw [lookupDist_cons_self hev]
      exact List.mem_cons.mpr (Or.inl (by rw [← hev]))
    · simp only [distKeys, List.map_cons, List.mem_cons] at h
      rcases h with h | h
      · exact absurd h.symm hev
      · rw [lookupDist_cons_ne hev]
        exact List.mem_cons_of_mem e (ih (by simpa [distKeys] using h))

theorem foldl_max_mem {α : Type} (f : α → Nat) :
    ∀ (xs : List α) (b : α),
      xs.foldl (fun b y => if f y > f b then y else b) b ∈ b :: xs := by
  intro xs
  induction xs with
  | nil =>
    intro b
    simp
  | cons y ys ih =>
    intro b
    rw [List.foldl_cons]
    have hmem := ih (if f y > f b then y else b)
    rcases List.mem_cons.mp hmem with hres | hres
    · rw [hres]
      split
      · simp
      · simp
    · simp [hres]

theorem foldl_max_ge {α : Type} (f : α → Nat) :
    ∀ (xs : List α) (b : α),
      f b ≤ f (xs.foldl (fun b y => if f y > f b then y else b) b) ∧
      ∀ y ∈ xs, f y ≤ f (xs.foldl (fun b y => if f y > f b then y else b) b) := by
  intro xs
  induction xs with
  | nil =>
    intro b
    exact ⟨le_refl _, by simp⟩
  | cons y ys ih =>
    intro b
    rw [List.foldl_cons]
    obtain ⟨h1, h2⟩ := ih (if f y > f b then y else b)
    have hbase : f b ≤ f (if f y > f b then y else b) := by
      split <;> omega
    have hy : f y ≤ f (if f y > f b then y else b) := by
      split <;> omega
    refine ⟨le_trans hbase h1, ?_⟩
    intro z hz
    rcases List.mem_cons.mp hz with rfl | hz
    · exact le_trans hy h1
    · exact h2 z hz

theorem maxFirst_spec {xs : List (Nat × Node)} {m : Nat × Node}
    (h : maxFirst xs = some m) : m ∈ xs ∧ ∀ y ∈ xs, y.1 ≤ m.1 := by
  cases xs with
  | nil => cases h
  | cons x rest =>
    unfold maxFirst at h
    injection h with h
    subst h
    refine ⟨foldl_max_mem (fun p => p.1) rest x, ?_⟩
    intro y hy
    obtain ⟨h1, h2⟩ := foldl_max_ge (fun p => p.1) rest x
    rcases List.mem_cons.mp hy with rfl | hy
    · exact h1
    · exact h2 y hy

theorem argmaxKey_spec {dist : List (Node × Nat × Node)} {v : Node}
    (h : argmaxKey dist = some v) :
    ∃ m ∈ dist, m.1 = v ∧ ∀ y ∈ dist, y.2.1 ≤ m.2.1 := by
  cases dist with
  | nil => cases h
  | cons e rest =>
    unfold argmaxKey at h
    injection h with h
    refine ⟨rest.foldl (fun b y => if y.2.1 > b.2.1 then y else b) e,
      foldl_max_mem (fun p => p.2.1) rest e, h, ?_⟩
    intro y hy
    obtain ⟨h1, h2⟩ := foldl_max_ge (fun p => p.2.1) rest e
    rcases List.mem_cons.mp hy with rfl | hy
    · exact h1
    · exact h2 y hy

theorem mem_predsOf {g : DiGraph} {u v : Node} :
    u ∈ predsOf g v ↔ (u, v) ∈ g.edges := by
  unfold predsOf
  constructor
  · intro h
    obtain ⟨e, he, heq⟩ := List.mem_map.mp h
    rcases List.mem_filter.mp he with ⟨hes, hev⟩
    have : e.2 = v := by simpa using hev
    have : e = (u, v) := Prod.ext heq this
    exact this ▸ hes
  · intro h
    exact List.mem_map.mpr ⟨(u, v), List.mem_filter.mpr ⟨h, by simp⟩, rfl⟩

theorem posIn_append_not_mem {l1 : List Node} {u : Node} (l2 : List Node)
    (h : u ∉ l1) : posIn (l1 ++ u :: l2) u = l1.length := by
  induction l1 with
  | nil => simp [posIn]
  | cons a rest ih =>
    have hne : a ≠ u := fun he => h (he ▸ List.mem_cons_self a rest)
    have h2 : u ∉ rest := fun hm => h (List.mem_cons_of_mem a hm)
    rw [List.cons_append]
    show (if a = u then 0 else posIn (rest ++ u :: l2) u + 1) = rest.length + 1
    rw [if_neg hne, ih h2]

theorem mem_of_posIn_lt {l l2 : List Node} {u : Node}
    (h : posIn (l ++ l2) u < l.length) : u ∈ l := by
  induction l with
  | nil => simp at h
  | cons a rest ih =>
    by_cases hau : a = u
    · exact hau ▸ List.mem_cons_self a rest
    · have hstep : posIn ((a :: rest) ++ l2) u = posIn (rest ++ l2) u + 1 := by
        rw [List.cons_append]
        show (if a = u then 0 else posIn (rest ++ l2) u + 1) = _
        rw [if_neg hau]
      rw [hstep] at h
      simp only [List.length_cons] at h
      exact List.mem_cons_of_mem a (ih (by omega))

theorem before_boundary {u v : Node} {pre suf order : List Node}
    (hord : order = pre ++ v :: suf) (hnd : order.Nodup)
    (hB : Before u v order) : u ∈ pre ∧ u ≠ v := by
  obtain ⟨l1, l2, l3, hdec0⟩ := hB
  have hdec1 : order = l1 ++ u :: (l2 ++ v :: l3) := by
    rw [hdec0]
    simp
  have hdec2 : order = (l1 ++ u :: l2) ++ v :: l3 := by
    rw [hdec0]
  have hvpre : v ∉ pre := by
    intro hv
    have hx := hnd
    rw [hord] at hx
    exact (List.disjoint_of_nodup_append hx) hv (List.mem_cons_self v suf)
  have hul1 : u ∉ l1 := by
    intro hu
    have hx := hnd
    rw [hdec1] at hx
    exact (List.disjoint_of_nodup_append hx) hu
      (List.mem_cons_self u (l2 ++ v :: l3))
  have hvmid : v ∉ l1 ++ u :: l2 := by
    intro hv
    have hx := hnd
    rw [hdec2] at hx
    exact (List.disjoint_of_nodup_append hx) hv (List.mem_cons_self v l3)
  have hposu : posIn order u = l1.length := by
    rw [hdec1]
    exact posIn_append_not_mem _ hul1
  have hposv1 : posIn order v = (l1 ++ u :: l2).length := by
    rw [hdec2]
    exact posIn_append_not_mem _ hvmid
  have hposv2 : posIn order v = pre.length := by
    rw [hord]
    exact posIn_append_not_mem _ hvpre
  have humem : u ∈ pre := by
    refine @mem_of_posIn_lt pre (v :: suf) u ?_
    rw [← hord, hposu]
    rw [hposv1] at hposv2
    simp only [List.length_append, List.length_cons] at hposv2
    omega
  exact ⟨humem, fun he => hvpre (he ▸ humem)⟩

theorem distKeys_append (d1 d2 : List (Node × Nat × Node)) :
    distKeys (d1 ++ d2) = distKeys d1 ++ distKeys d2 := by
  simp [distKeys]

/-- What the dynamic program records for one `dist` entry
`(v, (n, u))`: the node is a graph node, and the entry is either the
self-pointing source record `(0, v)` or extends a genuine
predecessor's recorded best length by one. -/
@[reducible] def EntryOk (g : DiGraph) (dist : List (Node × Nat × Node))
    (ent : Node × Nat × Node) : Prop :=
  ent.1 ∈ g.nodes ∧
    ((ent.2.2 = ent.1 ∧ ent.2.1 = 0) ∨
      ((ent.2.2, ent.1) ∈ g.edges ∧ ent.2.2 ≠ ent.1 ∧
        ent.2.2 ∈ distKeys dist ∧
        (lookupDist dist ent.2.2).1 + 1 = ent.2.1))

/-- The invariant of the whole `dist` table: distinct keys, every entry
well-formed. -/
@[reducible] def DistInv (g : DiGraph)
    (dist : List (Node × Nat × Node)) : Prop :=
  (distKeys dist).Nodup ∧ ∀ ent ∈ dist, EntryOk g dist ent

theorem entryOk_append {g : DiGraph} {dist : List (Node × Nat × Node)}
    {ent : Node × Nat × Node} (x : Node × Nat × Node)
    (hok : EntryOk g dist ent) : EntryOk g (dist ++ [x]) ent := by
  obtain ⟨h1, h2⟩ := hok
  refine ⟨h1, ?_⟩
  rcases h2 with h2 | ⟨he, hne, hkey, hval⟩
  · exact Or.inl h2
  · refine Or.inr ⟨he, hne, ?_, ?_⟩
    · rw [distKeys_append]
      exact List.mem_append.mpr (Or.inl hkey)
    · rw [lookupDist_append_left _ hkey]
      exact hval

theorem maxFirst_eq_none {xs : List (Nat × Node)} (h : maxFirst xs = none) :
    xs = [] := by
  cases xs with
  | nil => rfl
  | cons x rest => cases h

theorem stepDist_inv {g : DiGraph} {dist : List (Node × Nat × Node)}
    {v : Node} (hInv : DistInv g dist) (hfresh : v ∉ distKeys dist)
    (hv : v ∈ g.nodes)
    (hpreds : ∀ u ∈ predsOf g v, u ∈ distKeys dist ∧ u ≠ v) :
    DistInv g (stepDist g dist v) := by
  have hnd' : (distKeys dist ++ [v]).Nodup :=
    List.Nodup.append hInv.1 (List.nodup_singleton v)
      (fun a ha hav => hfresh ((List.mem_singleton.mp hav) ▸ ha))
  cases hm : maxFirst
      ((predsOf g v).map (fun u => ((lookupDist dist u).1 + 1, u))) with
  | none =>
    have hstep : stepDist g dist v = dist ++ [(v, 0, v)] := by
      unfold stepDist
      rw [hm]
    rw [hstep]
    constructor
    · rw [distKeys_append]
      exact hnd'
    · intro ent hent
      rcases List.mem_append.mp hent with hmem | hmem
      · exact entryOk_append _ (hInv.2 ent hmem)
      · rw [List.mem_singleton] at hmem
        subst hmem
        exact ⟨hv, Or.inl ⟨rfl, rfl⟩⟩
  | some nu =>
    obtain ⟨hmem_us, -⟩ := maxFirst_spec hm
    obtain ⟨u0, hu0_preds, hu0_eq⟩ := List.mem_map.mp hmem_us
    have hnu2 : nu.2 = u0 := by rw [← hu0_eq]
    have hnu1 : nu.1 = (lookupDist dist u0).1 + 1 := by rw [← hu0_eq]
    obtain ⟨hu0_keys, hu0_ne⟩ := hpreds u0 hu0_preds
    have hstep : stepDist g dist v = dist ++ [(v, nu.1, nu.2)] := by
      unfold stepDist
      rw [hm]
    rw [hstep]
    constructor
    · rw [distKeys_append]
      exact hnd'
    · intro ent hent
      rcases List.mem_append.mp hent with hmem | hmem
      · exact entryOk_append _ (hInv.2 ent hmem)
      · rw [List.mem_singleton] at hmem
        subst hmem
        refine ⟨hv, Or.inr ⟨?_, ?_, ?_, ?_⟩⟩
        · rw [hnu2]
          exact mem_predsOf.mp hu0_preds
        · rw [hnu2]
          exact hu0_ne
        · rw [distKeys_append, hnu2]
          exact List.mem_append.mpr (Or.inl hu0_keys)
        · rw [hnu2, lookupDist_append_left _ hu0_keys, ← hnu1]

theorem buildDist_lookup_stable (g : DiGraph) (order : List Node) :
    ∀ (d : List (Node × Nat × Node)) (v : Node), v ∈ distKeys d →
      lookupDist (buildDist g order d) v = lookupDist d v := by
  induction order with
  | nil =>
    intro d v _
    rfl
  | cons w rest ih =>
    intro d v h
    simp only [buildDist]
    have hv' : v ∈ distKeys (stepDist g d w) := by
      rw [stepDist_keys]
      exact List.mem_append.mpr (Or.inl h)
    rw [ih _ _ hv']
    unfold stepDist
    split <;> exact lookupDist_append_left _ h

theorem buildDist_main {g : DiGraph} {order : List Node}
    (hnd : order.Nodup) (hmem : ∀ x ∈ order, x ∈ g.nodes)
    (hbef : ∀ u v : Node, (u, v) ∈ g.edges → v ∈ order → Before u v order) :
    ∀ (suf pre : List Node), order = pre ++ suf →
      DistInv g (buildDist g pre []) →
      distKeys (buildDist g pre []) = pre →
      DistInv g (buildDist g order []) ∧
        distKeys (buildDist g order []) = order ∧
        ∀ v ∈ suf, ∀ u : Node, (u, v) ∈ g.edges →
          (lookupDist (buildDist g order []) u).1 + 1 ≤
            (lookupDist (buildDist g order []) v).1 := by
  intro suf
  induction suf with
  | nil =>
    intro pre hsplit hInv hkeys
    rw [List.append_nil] at hsplit
    subst hsplit
    exact ⟨hInv, hkeys, by simp⟩
  | cons v rest ih =>
    intro pre hsplit hInv hkeys
    have hvord : v ∈ order := by
      rw [hsplit]
      exact List.mem_append.mpr (Or.inr (List.mem_cons_self v rest))
    have hvmem : v ∈ g.nodes := hmem v hvord
    have hfresh : v ∉ distKeys (buildDist g pre []) := by
      rw [hkeys]
      intro hv
      have hx := hnd
      rw [hsplit] at hx
      exact (List.disjoint_of_nodup_append hx) hv (List.mem_cons_self v rest)
    have hpreds : ∀ u ∈ predsOf g v,
        u ∈ distKeys (buildDist g pre []) ∧ u ≠ v := by
      intro u hu
      have hedge := mem_predsOf.mp hu
      obtain ⟨hupre, hune⟩ :=
        before_boundary hsplit hnd (hbef u v hedge hvord)
      exact ⟨by rw [hkeys]; exact hupre, hune⟩
    have hstep1 : buildDist g (pre ++ [v]) [] =
        stepDist g (buildDist g pre []) v := by
      rw [buildDist_append]
      rfl
    have hInv' : DistInv g (buildDist g (pre ++ [v]) []) := by
      rw [hstep1]
      exact stepDist_inv hInv hfresh hvmem hpreds
    have hkeys' : distKeys (buildDist g (pre ++ [v]) []) = pre ++ [v] := by
      rw [hstep1, stepDist_keys, hkeys]
    have hsplit' : order = (pre ++ [v]) ++ rest := by
      rw [hsplit]
      simp
    obtain ⟨hInvO, hkeysO, hboundO⟩ := ih (pre ++ [v]) hsplit' hInv' hkeys'
    refine ⟨hInvO, hkeysO, ?_⟩
    intro w hw u hedge
    rcases List.mem_cons.mp hw with rfl | hwrest
    · obtain ⟨hupre, hune⟩ :=
        before_boundary hsplit hnd (hbef u w hedge hvord)
      have hukeys : u ∈ distKeys (buildDist g pre []) := by
        rw [hkeys]
        exact hupre
      have hu_preds : u ∈ predsOf g w := mem_predsOf.mpr hedge
      have hmem_us :
          ((lookupDist (buildDist g pre []) u).1 + 1, u) ∈
            (predsOf g w).map
              (fun x => ((lookupDist (buildDist g pre []) x).1 + 1, x)) :=
        List.mem_map.mpr ⟨u, hu_preds, rfl⟩
      cases hm : maxFirst
          ((predsOf g w).map
            (fun x => ((lookupDist (buildDist g pre []) x).1 + 1, x))) with
      | none =>
        rw [maxFirst_eq_none hm] at hmem_us
        cases hmem_us
      | some nu =>
        obtain ⟨-, hge⟩ := maxFirst_spec hm
        have hbound : (lookupDist (buildDist g pre []) u).1 + 1 ≤ nu.1 :=
          hge _ hmem_us
        have hstepw : stepDist g (buildDist g pre []) w =
            buildDist g pre [] ++ [(w, nu.1, nu.2)] := by
          unfold stepDist
          rw [hm]
        have hlw : lookupDist (buildDist g (pre ++ [w]) []) w = (nu.1, nu.2) := by
          rw [hstep1, hstepw]
          exact lookupDist_append_fresh _ hfresh
        have hlu : lookupDist (buildDist g (pre ++ [w]) []) u =
            lookupDist (buildDist g pre []) u := by
          rw [hstep1, hstepw]
          exact lookupDist_append_left _ hukeys
        have hD : buildDist g order [] =
            buildDist g rest (buildDist g (pre ++ [w]) []) := by
          rw [hsplit', buildDist_append]
        have hwkeys' : w ∈ distKeys (buildDist g (pre ++ [w]) []) := by
          rw [hkeys']
          exact List.mem_append.mpr (Or.inr (List.mem_singleton.mpr rfl))
        have hukeys' : u ∈ distKeys (buildDist g (pre ++ [w]) []) := by
          rw [hkeys']
          exact List.mem_append.mpr (Or.inl hupre)
        have hstabw : lookupDist (buildDist g order []) w = (nu.1, nu.2) := by
          rw [hD, buildDist_lookup_stable g rest _ _ hwkeys', hlw]
        have hstabu : lookupDist (buildDist g order []) u =
            lookupDist (buildDist g pre []) u := by
          rw [hD, buildDist_lookup_stable g rest _ _ hukeys', hlu]
        rw [hstabw, hstabu]
        exact hbound
    · exact hboundO w hwrest u hedge

theorem getLast?_rev (l : List Node) : l.reverse.getLast? = l.head? := by
  cases l with
  | nil => rfl
  | cons a rest =>
    rw [List.reverse_cons, List.getLast?_concat, List.head?_cons]

theorem traceback_sound {g : DiGraph} {dist : List (Node × Nat × Node)}
    (hInv : DistInv g dist) :
    ∀ (n : Nat) (v u : Node), (v, n, u) ∈ dist →
      ∀ fuel, n + 1 ≤ fuel →
        (traceback fuel dist v).length = n + 1 ∧
        (∀ x ∈ traceback fuel dist v,
          x ∈ distKeys dist ∧ (lookupDist dist x).1 ≤ n ∧ x ∈ g.nodes) ∧
        (traceback fuel dist v).Nodup ∧
        (traceback fuel dist v).head? = some v ∧
        List.Chain' (fun a b => (a, b) ∈ g.edges)
          (traceback fuel dist v).reverse := by
  intro n
  induction n using Nat.strong_induction_on with
  | _ n ihn =>
    intro v u hent fuel hfuel
    have hlk : lookupDist dist v = (n, u) := lookup_of_mem hInv.1 hent
    obtain ⟨hvg, hcases⟩ := hInv.2 _ hent
    obtain ⟨f, rfl⟩ : ∃ f, fuel = f + 1 := ⟨fuel - 1, by omega⟩
    rcases hcases with ⟨huv, hn0⟩ | ⟨hedge, hne, hukeys, hval⟩
    · simp only at huv hn0
      subst hn0
      have htb : traceback (f + 1) dist v = [v] := by
        show (if (lookupDist dist v).2 = v then [v]
          else v :: traceback f dist (lookupDist dist v).2) = [v]
        rw [hlk]
        simp [huv]
      rw [htb]
      refine ⟨rfl, ?_, by simp, rfl, by simp⟩
      intro x hx
      rw [List.mem_singleton] at hx
      subst hx
      exact ⟨List.mem_map.mpr ⟨(x, 0, u), hent, rfl⟩, by rw [hlk], hvg⟩
    · simp only at hedge hne hukeys hval
      have hu_ent : (u, (lookupDist dist u).1, (lookupDist dist u).2) ∈ dist := by
        have := mem_keys_entry hukeys
        simpa using this
      have hlt : (lookupDist dist u).1 < n := by omega
      have hfuel2 : (lookupDist dist u).1 + 1 ≤ f := by omega
      obtain ⟨ihA, ihB, ihC, ihD, ihE⟩ :=
        ihn (lookupDist dist u).1 hlt u (lookupDist dist u).2 hu_ent f hfuel2
      have htb : traceback (f + 1) dist v = v :: traceback f dist u := by
        show (if (lookupDist dist v).2 = v then [v]
          else v :: traceback f dist (lookupDist dist v).2) = _
        rw [hlk]
        simp [hne]
      rw [htb]
      refine ⟨?_, ?_, ?_, rfl, ?_⟩
      · simp only [List.length_cons, ihA]
        omega
      · intro x hx
        rcases List.mem_cons.mp hx with rfl | hx
        · exact ⟨List.mem_map.mpr ⟨(x, n, u), hent, rfl⟩, by rw [hlk], hvg⟩
        · obtain ⟨h1, h2, h3⟩ := ihB x hx
          exact ⟨h1, by omega, h3⟩
      · refine List.nodup_cons.mpr ⟨?_, ihC⟩
        intro hvt
        obtain ⟨-, h2, -⟩ := ihB v hvt
        rw [hlk] at h2
        simp at h2
        omega
      · rw [List.reverse_cons, List.chain'_append]
        refine ⟨ihE, by simp, ?_⟩
        intro x hx y hy
        rw [getLast?_rev, ihD] at hx
        have hxu : x = u := by
          have := hx
          simp at this
          exact this.symm
        have hyv : y = v := by
          have := hy
          simp at this
          exact this.symm
        subst hxu
        subst hyv
        exact hedge

theorem entry_value_le {g : DiGraph} {dist : List (Node × Nat × Node)}
    (hInv : DistInv g dist) {v : Node} {n : Nat} {u : Node}
    (hent : (v, n, u) ∈ dist) : n + 1 ≤ dist.length := by
  obtain ⟨hA, hB, hC, -, -⟩ :=
    traceback_sound hInv n v u hent (n + 1) (le_refl _)
  have hsub : traceback (n + 1) dist v ⊆ distKeys dist :=
    fun x hx => (hB x hx).1
  have hle := (List.Nodup.subperm hC hsub).length_le
  rw [hA] at hle
  simpa [distKeys] using hle

theorem chain_length_le {g : DiGraph} {D : List (Node × Nat × Node)}
    (hedge : ∀ u v : Node, (u, v) ∈ g.edges →
      (lookupDist D u).1 + 1 ≤ (lookupDist D v).1) (q : List Node) :
    q ≠ [] → List.Chain' (fun a b => (a, b) ∈ g.edges) q →
      ∀ z, q.getLast? = some z → q.length ≤ (lookupDist D z).1 + 1 := by
  induction q using List.reverseRecOn with
  | nil =>
    intro h
    exact absurd rfl h
  | append_singleton l a ihl =>
    intro _ hchain z hz
    have hza : z = a := by
      rw [List.getLast?_concat] at hz
      exact (Option.some.injEq .. ▸ hz).symm
    rw [hza]
    rcases eq_or_ne l [] with rfl | hlne
    · simp
    · obtain ⟨y, hy⟩ : ∃ y, l.getLast? = some y :=
        ⟨l.getLast hlne, List.getLast?_eq_getLast_of_ne_nil hlne⟩
      rw [List.chain'_append] at hchain
      obtain ⟨hcl, -, hlink⟩ := hchain
      have hedge_ya : (y, a) ∈ g.edges := hlink y hy a rfl
      have ihq := ihl hlne hcl y hy
      have hstep := hedge y a hedge_ya
      simp only [List.length_append, List.length_singleton]
      omega

theorem dlp_analysis {r : DiGraph} (hE : EdgesIn r) (hnd : r.nodes.Nodup)
    (rank : Node → Nat) (hrank : ∀ e ∈ r.edges, rank e.1 < rank e.2)
    (hne : r.nodes ≠ []) :
    ∃ p, dag_longest_path r = some p ∧ IsPathG r p ∧
      ∀ q, IsPathG r q → q.length ≤ p.length := by
  obtain ⟨order, horder⟩ :=
    kahn_success r.nodes.length r.nodes r.edges rank (le_refl _)
      (fun e he => (hE e he).1) hrank
  have htopo : topological_sort r = some order := horder
  have hordmem : ∀ x, x ∈ order ↔ x ∈ r.nodes := kahn_mem _ _ _ _ horder
  have hordnd : order.Nodup := kahn_nodup _ _ _ _ horder hnd
  have hbef : ∀ u v : Node, (u, v) ∈ r.edges → v ∈ order →
      Before u v order := by
    intro u v he hv
    exact kahn_before _ _ _ _ horder (fun e he2 => (hE e he2).1) u v he
      ((hordmem v).mp hv)
  obtain ⟨hInv, hkeys, hbound⟩ :=
    buildDist_main hordnd (fun x hx => (hordmem x).mp hx) hbef order [] rfl
      ⟨by simp [distKeys, buildDist], by
        intro ent h
        simp [buildDist] at h⟩
      (by simp [distKeys, buildDist])
  have hedge_bound : ∀ u v : Node, (u, v) ∈ r.edges →
      (lookupDist (buildDist r order []) u).1 + 1 ≤
        (lookupDist (buildDist r order []) v).1 := by
    intro u v he
    exact hbound v ((hordmem v).mpr (hE _ he).2) u he
  cases hag : argmaxKey (buildDist r order []) with
  | none =>
    exfalso
    cases hbd : buildDist r order [] with
    | nil =>
      have : distKeys (buildDist r order []) = [] := by
        rw [hbd]
        rfl
      rw [hkeys] at this
      subst this
      cases hnn : r.nodes with
      | nil => exact hne hnn
      | cons x xs =>
        have hx : x ∈ r.nodes := by
          rw [hnn]
          exact List.mem_cons_self x xs
        exact absurd ((hordmem x).mpr hx) (by simp)
    | cons e es =>
      rw [hbd] at hag
      unfold argmaxKey at hag
      cases hag
  | some vstar =>
    obtain ⟨ment, hment, hmkey, hmax⟩ := argmaxKey_spec hag
    have hent : (vstar, ment.2.1, ment.2.2) ∈ buildDist r order [] := by
      have : (ment.1, ment.2.1, ment.2.2) = ment := by
        simp
      rw [← hmkey, this]
      exact hment
    have hfuel : ment.2.1 + 1 ≤ (buildDist r order []).length :=
      entry_value_le hInv hent
    obtain ⟨hA, hB, hC, hHead, hChain⟩ :=
      traceback_sound hInv ment.2.1 vstar ment.2.2 hent
        (buildDist r order []).length hfuel
    have hcond : ¬(r.nodes.isEmpty = true) := by
      cases hnn : r.nodes with
      | nil => exact absurd hnn hne
      | cons x xs => simp
    refine ⟨(traceback (buildDist r order []).length
      (buildDist r order []) vstar).reverse, ?_, ?_, ?_⟩
    · unfold dag_longest_path
      rw [if_neg hcond, htopo]
      simp [hag]
    · refine ⟨?_, ?_, hChain⟩
      · intro h0
        have := congrArg List.length h0
        rw [List.length_reverse, hA] at this
        simp at this
      · intro x hx
        rw [List.mem_reverse] at hx
        exact (hB x hx).2.2
    · intro q hq
      obtain ⟨hqne, hqmem, hqchain⟩ := hq
      obtain ⟨z, hz⟩ : ∃ z, q.getLast? = some z :=
        ⟨q.getLast hqne, List.getLast?_eq_getLast_of_ne_nil hqne⟩
      have hzq : z ∈ q := by
        have := List.getLast_mem hqne
        rw [show q.getLast hqne = z by
          have := List.getLast?_eq_getLast_of_ne_nil hqne
          rw [hz] at this
          exact (Option.some.injEq .. ▸ this).symm] at this
        exact this
      have hzkeys : z ∈ distKeys (buildDist r order []) := by
        rw [hkeys]
        exact (hordmem z).mpr (hqmem z hzq)
      have hzent := mem_keys_entry hzkeys
      have hzmax : (lookupDist (buildDist r order []) z).1 ≤ ment.2.1 := by
        have := hmax _ hzent
        simpa using this
      have hqlen := chain_length_le hedge_bound q hqne hqchain z hz
      rw [List.length_reverse, hA]
      omega

/-- C3: for every completed set whose residual graph is non-empty (it
is always a DAG here, every residual of the acyclic base graph being
acyclic), the engine returns a path of the residual graph: consecutive
pairs are residual edges, the stage count equals the number of nodes on
the path (an isolated node counting as a path of length 1), and no
path of the residual graph has more nodes. -/
theorem criticalPath_correct (passed : List Node)
    (hne : (removeCompleted (buildGraph curriculum) passed).nodes ≠ []) :
    ∃ n p, calculate_critical_path passed =
        Except.ok (n, p, removeCompleted (buildGraph curriculum) passed) ∧
      IsPathG (removeCompleted (buildGraph curriculum) passed) p ∧
      n = p.length ∧
      ∀ q, IsPathG (removeCompleted (buildGraph curriculum) passed) q →
        q.length ≤ n := by
  have hE := removeCompleted_edgesIn _ passed (buildGraph_edgesIn curriculum)
  have hnd : (removeCompleted (buildGraph curriculum) passed).nodes.Nodup := by
    rw [removeCompleted_nodes]
    exact (buildGraph_nodup curriculum).filter _
  have hrank : ∀ e ∈ (removeCompleted (buildGraph curriculum) passed).edges,
      posIn (buildGraph curriculum).nodes e.1 <
        posIn (buildGraph curriculum).nodes e.2 := by
    intro e he
    rw [removeCompleted_edges _ _ (buildGraph_edgesIn curriculum)] at he
    exact base_edges_ranked e (List.mem_filter.mp he).1
  obtain ⟨p, hdlp, hpath, hmax⟩ := dlp_analysis hE hnd _ hrank hne
  refine ⟨p.length, p, ?_, hpath, rfl, fun q hq => hmax q hq⟩
  simp only [calculate_critical_path, calcCriticalPathWith]
  have hlen0 :
      ¬(removeCompleted (buildGraph curriculum) passed).nodes.length = 0 := by
    intro h0
    exact hne (List.length_eq_zero.mp h0)
  rw [if_neg hlen0, hdlp]

/-- Witness for C3 at the empty completed set (all 28 courses remain). -/
theorem criticalPath_correct_witness :
    (removeCompleted (buildGraph curriculum) []).nodes ≠ [] ∧
      ∃ n p, calculate_critical_path [] =
          Except.ok (n, p, removeCompleted (buildGraph curriculum) []) ∧
        IsPathG (removeCompleted (buildGraph curriculum) []) p ∧
        n = p.length ∧
        ∀ q, IsPathG (removeCompleted (buildGraph curriculum) []) q →
          q.length ≤ n :=
  ⟨by decide, criticalPath_correct [] (by decide)⟩

/-- C10: no completed identifier appears on the returned path or among
the residual nodes, and every path node is a residual node. -/
theorem result_disjoint_completed (passed : List Node) (n : Nat)
    (p : List Node) (r : DiGraph)
    (h : calculate_critical_path passed = Except.ok (n, p, r)) :
    (∀ t ∈ passed, t ∉ p ∧ t ∉ r.nodes) ∧ ∀ t ∈ p, t ∈ r.nodes := by
  have hshape : r = removeCompleted (buildGraph curriculum) passed ∧
      (p = [] ∨
        ((removeCompleted (buildGraph curriculum) passed).nodes ≠ [] ∧
          dag_longest_path (removeCompleted (buildGraph curriculum) passed) =
            some p)) := by
    simp only [calculate_critical_path, calcCriticalPathWith] at h
    split at h
    · simp only [Except.ok.injEq, Prod.mk.injEq] at h
      exact ⟨h.2.2.symm, Or.inl h.2.1.symm⟩
    · next hlen =>
      split at h
      · exact Except.noConfusion h
      · next cp hcp =>
        simp only [Except.ok.injEq, Prod.mk.injEq] at h
        refine ⟨h.2.2.symm, Or.inr ⟨?_, ?_⟩⟩
        · intro h0
          exact hlen (by rw [h0]; rfl)
        · rw [← h.2.1]
          exact hcp
  obtain ⟨hr, hp⟩ := hshape
  have hmemp : ∀ t ∈ p, t ∈ r.nodes := by
    rcases hp with rfl | ⟨hne, hdlp⟩
    · intro t ht
      cases ht
    · have hE := removeCompleted_edgesIn _ passed (buildGraph_edgesIn curriculum)
      have hnd :
          (removeCompleted (buildGraph curriculum) passed).nodes.Nodup := by
        rw [removeCompleted_nodes]
        exact (buildGraph_nodup curriculum).filter _
      have hrank :
          ∀ e ∈ (removeCompleted (buildGraph curriculum) passed).edges,
            posIn (buildGraph curriculum).nodes e.1 <
              posIn (buildGraph curriculum).nodes e.2 := by
        intro e he
        rw [removeCompleted_edges _ _ (buildGraph_edgesIn curriculum)] at he
        exact base_edges_ranked e (List.mem_filter.mp he).1
      obtain ⟨q, hdlp2, hqpath, -⟩ := dlp_analysis hE hnd _ hrank hne
      rw [hdlp] at hdlp2
      have hpq : p = q := by
        injection hdlp2
      subst hpq
      intro t ht
      rw [hr]
      exact hqpath.2.1 t ht
  refine ⟨?_, hmemp⟩
  intro t ht
  have htr : t ∉ r.nodes := by
    rw [hr, removeCompleted_nodes]
    intro hmem
    rcases List.mem_filter.mp hmem with ⟨-, hcond⟩
    simp at hcond
    exact hcond ht
  exact ⟨fun htp => htr (hmemp t htp), htr⟩

/-- Witness for C10 at the all-courses completed set. -/
theorem result_disjoint_completed_witness :
    (∀ t ∈ allCourses, t ∉ ([] : List Node) ∧
        t ∉ (⟨[], []⟩ : DiGraph).nodes) ∧
      ∀ t ∈ ([] : List Node), t ∈ (⟨[], []⟩ : DiGraph).nodes :=
  result_disjoint_completed allCourses 0 [] ⟨[], []⟩ (by rfl)
